import Mathlib

/-!
# Verification of the AudioAPI fingerprinting and matching core

Shallow embedding of `SearchMultipleSongCloud.py` (the fingerprint
pairing loop `fingerprint_song`, the matcher `recognize_from_supabase`,
and the multi-song scanner `recognize_multiple_songs_supabase`),
together with theorems settling the specification claims.

Times, frequencies and offsets are modelled as exact rationals
(every IEEE-754 double is a dyadic rational).  Votes and confidence
scores are naturals.  Song titles are strings, fingerprint hashes are
integers.  The external PostgreSQL index is modelled as a list of
`(hash, songTitle, offsetTime)` rows together with a lookup oracle; a
`none` result of the oracle models a raised `psycopg2.Error`.
-/

namespace AudioAPI

/-! ## CPython numeric hashing, parametrised by the platform

`fingerprint_song` computes `hash((anchor_freq, target_freq, time_delta))`
with Python's builtin `hash`.  For numeric values that hash is not
salted, but it does depend on the build: `_PyHASH_BITS` is 61 on
platforms with a 64-bit `Py_uhash_t` and 31 on 32-bit platforms, and
the tuple combiner (`tuplehash` in `tupleobject.c`, the xxHash-style
scheme of CPython >= 3.8) uses 64-bit or 32-bit modular arithmetic with
different prime constants.  We model both builds. -/

/-- The parameters of a CPython build that determine the builtin `hash`
of numbers and tuples: word size of `Py_uhash_t`, `_PyHASH_BITS`, the
three xxHash primes used by `tuplehash`, and its rotation amount. -/
structure HashPlatform where
  word : ℕ
  hashBits : ℕ
  prime1 : ℕ
  prime2 : ℕ
  prime5 : ℕ
  rot : ℕ
  deriving DecidableEq

/-- A 64-bit CPython build (`SIZEOF_PY_UHASH_T > 4`): `_PyHASH_BITS = 61`,
xxHash64 primes, rotate-left by 31. -/
def platform64 : HashPlatform :=
  ⟨64, 61, 11400714785074694791, 14029467366897019727, 2870177450012600261, 31⟩

/-- A 32-bit CPython build: `_PyHASH_BITS = 31`, xxHash32 primes,
rotate-left by 13. -/
def platform32 : HashPlatform :=
  ⟨32, 31, 2654435761, 2246822519, 374761393, 13⟩

/-- `_PyHASH_MODULUS = 2^_PyHASH_BITS - 1` (a Mersenne prime). -/
def pyHashModulus (bits : ℕ) : ℤ := 2 ^ bits - 1

/-- Base-2 logarithm by structural recursion on a fuel argument
(`log2Fuel f n = ⌊log₂ n⌋` whenever `n ≤ f`); used instead of
`Nat.log2` so that the definition evaluates by kernel reduction. -/
def log2Fuel : ℕ → ℕ → ℕ
  | 0, _ => 0
  | fuel + 1, n => if 2 ≤ n then log2Fuel fuel (n / 2) + 1 else 0

/-- CPython's `_Py_HashDouble` on a nonnegative finite double.  A double
is a dyadic rational `num / 2^k`; its hash is `num * 2^(-k)` reduced
modulo `2^bits - 1`, where `2^(-k)` means `2^((bits - k % bits) % bits)`
because `2^bits ≡ 1 (mod 2^bits - 1)`. -/
def pyHashDyadic (bits : ℕ) (q : ℚ) : ℤ :=
  let k := log2Fuel q.den q.den
  (q.num * 2 ^ ((bits - k % bits) % bits)) % pyHashModulus bits

/-- CPython's `hash` of a finite float: the dyadic reduction above, with
the sign carried through and the error sentinel `-1` mapped to `-2`. -/
def pyHashFloat (bits : ℕ) (q : ℚ) : ℤ :=
  let h := if q < 0 then -pyHashDyadic bits (-q) else pyHashDyadic bits q
  if h = -1 then -2 else h

/-- Reinterpret an unsigned `w`-bit value as the signed `Py_hash_t`. -/
def signedOfUnsigned (w : ℕ) (n : ℕ) : ℤ :=
  if n < 2 ^ (w - 1) then (n : ℤ) else (n : ℤ) - 2 ^ w

/-- Cast a signed `Py_hash_t` lane to `Py_uhash_t` (two's complement). -/
def toUnsigned (w : ℕ) (z : ℤ) : ℕ := (z % (2 ^ w : ℤ)).toNat

/-- `_PyHASH_XXROTATE`: rotate a `w`-bit word left by `r`. -/
def xxRotate (w r x : ℕ) : ℕ :=
  ((x * 2 ^ r) % 2 ^ w + x / 2 ^ (w - r)) % 2 ^ w

/-- One lane step of CPython's `tuplehash`:
`acc += lane * _PyHASH_XXPRIME_2; acc = _PyHASH_XXROTATE(acc);
acc *= _PyHASH_XXPRIME_1;` in `w`-bit modular arithmetic. -/
def tupleHashLane (p : HashPlatform) (acc : ℕ) (lane : ℤ) : ℕ :=
  let acc1 := (acc + toUnsigned p.word lane * p.prime2) % 2 ^ p.word
  (xxRotate p.word p.rot acc1 * p.prime1) % 2 ^ p.word

/-- CPython's `tuplehash` over the already-computed element hashes:
fold the lanes from `_PyHASH_XXPRIME_5`, add the length tag, map the
reserved value `(Py_uhash_t)-1` to `1546275796`, and reinterpret as a
signed `Py_hash_t`. -/
def pyHashTupleLanes (p : HashPlatform) (lanes : List ℤ) : ℤ :=
  let acc := lanes.foldl (tupleHashLane p) (p.prime5 % 2 ^ p.word)
  let acc := (acc + (lanes.length ^^^ (p.prime5 ^^^ 3527539))) % 2 ^ p.word
  if acc = 2 ^ p.word - 1 then 1546275796 else signedOfUnsigned p.word acc

/-- `hash((anchor_freq, target_freq, time_delta))` from line 85 of
`SearchMultipleSongCloud.py`, on build `p`. -/
def pyHashTriple (p : HashPlatform) (a b c : ℚ) : ℤ :=
  pyHashTupleLanes p
    [pyHashFloat p.hashBits a, pyHashFloat p.hashBits b, pyHashFloat p.hashBits c]

/-! ## The fingerprint pairing loop (`fingerprint_song`, lines 66-88)

A peak is a `(time, frequency)` pair; the input list is the time-sorted
peak list `sorted_peaks`.  The inner loop scans the peaks after the
anchor, breaks as soon as `target_time > t_max`, and emits
`(hash((anchor_freq, target_freq, time_delta)), anchor_time)` for every
target inside the time window and frequency band (both checks are
inclusive: `t_min <= target_time <= t_max and f_min <= target_freq <= f_max`). -/

def TARGET_ZONE_START_TIME : ℚ := mkRat 1 10

def TARGET_ZONE_TIME_DURATION : ℚ := mkRat 8 10

def TARGET_ZONE_FREQ_WIDTH : ℚ := 200

/-- The inner loop of `fingerprint_song` for one anchor `(ta, fa)`:
scan the later peaks, break on `target_time > t_max`, emit on
`t_min <= target_time <= t_max and f_min <= target_freq <= f_max`. -/
def innerLoop (p : HashPlatform) (ta fa tMin tMax fMin fMax : ℚ) :
    List (ℚ × ℚ) → List (ℤ × ℚ)
  | [] => []
  | (tt, tf) :: rest =>
    if tMax < tt then []
    else if tMin ≤ tt ∧ tt ≤ tMax ∧ fMin ≤ tf ∧ tf ≤ fMax then
      (pyHashTriple p fa tf (tt - ta), ta) :: innerLoop p ta fa tMin tMax fMin fMax rest
    else innerLoop p ta fa tMin tMax fMin fMax rest

/-- The outer loop of `fingerprint_song`: every peak in the time-sorted
list acts as anchor for the peaks after it.  `t_min = anchor_time + 0.1`,
`t_max = t_min + 0.8`, `f_min/f_max = anchor_freq ∓ 200`. -/
def fingerprintPairs (p : HashPlatform) : List (ℚ × ℚ) → List (ℤ × ℚ)
  | [] => []
  | (ta, fa) :: rest =>
    innerLoop p ta fa (ta + TARGET_ZONE_START_TIME)
      (ta + TARGET_ZONE_START_TIME + TARGET_ZONE_TIME_DURATION)
      (fa - TARGET_ZONE_FREQ_WIDTH) (fa + TARGET_ZONE_FREQ_WIDTH) rest
      ++ fingerprintPairs p rest

/-! ## The matcher (`recognize_from_supabase`, lines 94-159)

The query fingerprints arrive as a list of `(hash, anchorTime)` pairs.
The external store is modelled by a lookup oracle
`List ℤ → Option (List DbRow)`: `some rows` is a successful
`cursor.execute/fetchall` for one chunk, `none` is a raised
`psycopg2.Error` (which aborts the loop; the `except` branch rolls the
transaction back and the function returns `None`).  Dict keys `str(h)`
are modelled by the hash itself (`str` is injective on integers, and
every key of `query_hash_to_time` and every probed `db_hash` is an
integer, so membership and lookup agree with the string-keyed dict). -/

/-- One row of the `CALA_MDM_FINGERPRINTS ⋈ cala_mdm_songs` join:
`(intHash, szsongtitle, offSetTime)`. -/
structure DbRow where
  hash : ℤ
  song : String
  offset : ℚ
  deriving DecidableEq

def CHUNK_SIZE : ℕ := 900

/-- The rows returned by one `SELECT ... WHERE intHash IN (chunk)`
query: all index rows whose hash occurs in the chunk, in index order
(the model fixes a deterministic scan order for the external store). -/
def lookupChunk (index : List DbRow) (chunk : List ℤ) : List DbRow :=
  index.filter fun r => chunk.contains r.hash

/-- Chunk splitting by structural recursion on a fuel argument, so that
the definition evaluates by kernel reduction.  Whenever `l.length ≤ fuel`
every step has fuel left (each step consumes at least one element), so
the `0, l => [l]` fallback is never reached from `chunksOf`. -/
def chunksOfFuel (n : ℕ) : ℕ → List ℤ → List (List ℤ)
  | _, [] => []
  | 0, l => [l]
  | fuel + 1, x :: xs => (x :: xs.take (n - 1)) :: chunksOfFuel n fuel (xs.drop (n - 1))

/-- `query_hashes[i:i+CHUNK_SIZE] for i in range(0, len, CHUNK_SIZE)`:
split the hash list into consecutive chunks of `n` (the last one
shorter). -/
def chunksOf (n : ℕ) (l : List ℤ) : List (List ℤ) := chunksOfFuel n l.length l

/-- The chunk loop of lines 115-127: query each chunk in order and
extend `db_matches`; a failing chunk aborts the whole loop
(exception propagation). -/
def runChunks (lookup : List ℤ → Option (List DbRow)) :
    List (List ℤ) → Option (List DbRow)
  | [] => some []
  | c :: cs =>
    match lookup c with
    | none => none
    | some rows =>
      match runChunks lookup cs with
      | none => none
      | some rest => some (rows ++ rest)

/-- `query_hash_to_time = {str(h): t for h, t in query_fingerprints}`:
a later pair with the same hash overrides an earlier one. -/
def buildQueryMap (fps : List (ℤ × ℚ)) : ℤ → Option ℚ :=
  fps.foldl (fun m p => fun k => if k = p.1 then some p.2 else m k) (fun _ => none)

/-- `⌊q⌋` computed on the numerator and denominator. -/
def ratFloor (q : ℚ) : ℤ := q.num.fdiv q.den

/-- Python's banker's rounding of a rational to the nearest integer:
round half to even. -/
def roundHalfEven (q : ℚ) : ℤ :=
  let fl := ratFloor q
  let r := q.num - fl * (q.den : ℤ)
  if 2 * r < (q.den : ℤ) then fl
  else if (q.den : ℤ) < 2 * r then fl + 1
  else if fl % 2 = 0 then fl else fl + 1

/-- `round(x, 2)`: round to two decimal places, half to even. -/
def pyRound2 (q : ℚ) : ℚ := mkRat (roundHalfEven (100 * q)) 100

/-- `matches = defaultdict(int); matches[key] += 1`: increment the
count of `k`, preserving dict insertion order (a new key goes to the
end). -/
def bump (l : List ((String × ℚ) × ℕ)) (k : String × ℚ) :
    List ((String × ℚ) × ℕ) :=
  match l with
  | [] => [(k, 1)]
  | (k', n) :: rest => if k' = k then (k', n + 1) :: rest else (k', n) :: bump rest k

/-- The vote key `(song_name, round(db_timestamp - query_timestamp, 2))`
of one returned row, `none` when its hash is absent from
`query_hash_to_time`. -/
def voteKey (qmap : ℤ → Option ℚ) (r : DbRow) : Option (String × ℚ) :=
  (qmap r.hash).map fun t => (r.song, pyRound2 (r.offset - t))

/-- The scoring loop of lines 134-140: fold over `db_matches`,
incrementing the vote of each row's `(song, offset)` group. -/
def scoreMatches (qmap : ℤ → Option ℚ) (rows : List DbRow) :
    List ((String × ℚ) × ℕ) :=
  rows.foldl
    (fun acc r =>
      match voteKey qmap r with
      | some k => bump acc k
      | none => acc)
    []

/-- `max(matches.items(), key=lambda item: item[1])`: Python's `max`
keeps the current best unless a later item is strictly greater, so it
returns the first item attaining the maximum, in dict insertion
order. -/
def pyMax : List ((String × ℚ) × ℕ) → Option ((String × ℚ) × ℕ)
  | [] => none
  | x :: xs => some (xs.foldl (fun best y => if best.2 < y.2 then y else best) x)

/-- `recognize_from_supabase`: chunked lookup, scoring, best match.
Returns `none` for empty query fingerprints, a database error (after
rollback), an empty `db_matches`, or an empty vote grouping; otherwise
`some (song_name, score, offset)`. -/
def recognize_from_supabase (lookup : List ℤ → Option (List DbRow))
    (fps : List (ℤ × ℚ)) : Option (String × ℕ × ℚ) :=
  if fps.isEmpty then none
  else
    let query_hashes := fps.map Prod.fst
    match runChunks lookup (chunksOf CHUNK_SIZE query_hashes) with
    | none => none
    | some db_matches =>
      if db_matches.isEmpty then none
      else
        let ms := scoreMatches (buildQueryMap fps) db_matches
        if ms.isEmpty then none
        else
          match pyMax ms with
          | some ((song, offset), score) => some (song, score, offset)
          | none => none

/-- The infallible oracle of a fixed index state: every chunk query
succeeds and returns the matching rows. -/
def dbLookup (index : List DbRow) : List ℤ → Option (List DbRow) :=
  fun chunk => some (lookupChunk index chunk)

/-- Modelled from the spec: the single-unchunked-query matcher that
§8 "Chunked lookup equivalence" compares against — identical to
`recognize_from_supabase` except that all hashes are looked up in one
`IN` query. -/
def recognizeUnchunked (index : List DbRow) (fps : List (ℤ × ℚ)) :
    Option (String × ℕ × ℚ) :=
  if fps.isEmpty then none
  else
    let query_hashes := fps.map Prod.fst
    let db_matches := lookupChunk index query_hashes
    if db_matches.isEmpty then none
    else
      let ms := scoreMatches (buildQueryMap fps) db_matches
      if ms.isEmpty then none
      else
        match pyMax ms with
        | some ((song, offset), score) => some (song, score, offset)
        | none => none

/-- The rows accumulated across all chunks for a fixed index state. -/
def chunkedRows (index : List DbRow) (fps : List (ℤ × ℚ)) : List DbRow :=
  (chunksOf CHUNK_SIZE (fps.map Prod.fst)).flatMap (lookupChunk index)

/-- The rows of the single unchunked query. -/
def unchunkedRows (index : List DbRow) (fps : List (ℤ × ℚ)) : List DbRow :=
  lookupChunk index (fps.map Prod.fst)

/-- Number of votes a `(song, offset)` group receives, counted directly
on the returned rows. -/
def voteCount (index : List DbRow) (fps : List (ℤ × ℚ)) (k : String × ℚ) : ℕ :=
  (unchunkedRows index fps).countP fun r => decide (voteKey (buildQueryMap fps) r = some k)

/-- Assoc-list lookup of a group's recorded vote count (0 if absent). -/
def lookupCount (l : List ((String × ℚ) × ℕ)) (k : String × ℚ) : ℕ :=
  match l with
  | [] => 0
  | (k', n) :: rest => if k' = k then n else lookupCount rest k

/-! ## The multi-song scanner (`recognize_multiple_songs_supabase`,
lines 183-234)

Audio decoding and the per-window call to `recognize_from_supabase` are
the collaborator boundary: the scanner is parametrised by an oracle
`ℚ → Option (String × ℕ × ℚ)` mapping a window start position to that
window's match result.  The `while current_pos < total_duration` loop
is modelled with a fuel parameter; `scanLoop` returns `none` when the
fuel runs out before the loop condition fails, so `some` results are
exactly the completed runs of the source loop. -/

/-- One detected/merged interval (`song_info` dict). -/
structure SongInfo where
  song : String
  start_time : ℚ
  end_time : ℚ
  confidence : ℕ
  deriving DecidableEq

/-- The body of the scanning loop for one window at `pos`:
`last_detected_song` is always the last appended interval, so the state
is just the `detected_songs` list.  A result below `min_confidence` (or
no result) leaves the state untouched; a match of the same song as the
last interval extends its end time and takes the max confidence;
otherwise a new interval is appended. -/
def stepWindow (segDur : ℚ) (minConf : ℕ) (pos : ℚ) (detected : List SongInfo)
    (result : Option (String × ℕ × ℚ)) : List SongInfo :=
  match result with
  | none => detected
  | some (song, score, offset) =>
    if minConf ≤ score then
      match detected.getLast? with
      | some last =>
        if last.song = song then
          detected.dropLast ++
            [{ last with end_time := pos + segDur,
                         confidence := max last.confidence score }]
        else
          detected ++ [⟨song, pos + offset, pos + segDur, score⟩]
      | none => detected ++ [⟨song, pos + offset, pos + segDur, score⟩]
    else detected

/-- The scanning loop: while `pos < total`, process the window at `pos`
and advance by `segDur - overlap`.  `none` = fuel exhausted before the
loop finished. -/
def scanLoop (oracle : ℚ → Option (String × ℕ × ℚ)) (total segDur : ℚ)
    (minConf : ℕ) (overlap : ℚ) : ℕ → ℚ → List SongInfo → Option (List SongInfo)
  | 0, pos, acc => if pos < total then none else some acc
  | n + 1, pos, acc =>
    if pos < total then
      scanLoop oracle total segDur minConf overlap n (pos + (segDur - overlap))
        (stepWindow segDur minConf pos acc (oracle pos))
    else some acc

/-- The merge pass of lines 221-233, with `prev` the last element of
`merged_detections`: equal song → extend end time and take max
confidence, else append. -/
def mergeAux (prev : SongInfo) : List SongInfo → List SongInfo
  | [] => [prev]
  | c :: cs =>
    if c.song = prev.song then
      mergeAux { prev with end_time := c.end_time,
                           confidence := max prev.confidence c.confidence } cs
    else prev :: mergeAux c cs

/-- `merged_detections`: empty for no detections, otherwise the merge
pass seeded with the first detection. -/
def mergeDetections : List SongInfo → List SongInfo
  | [] => []
  | d :: ds => mergeAux d ds

/-- `recognize_multiple_songs_supabase`: run the scanning loop from
position 0 and apply the merge pass (`some` iff the loop completed
within the fuel). -/
def recognize_multiple_songs (oracle : ℚ → Option (String × ℕ × ℚ))
    (total segDur : ℚ) (minConf : ℕ) (overlap : ℚ) (fuel : ℕ) :
    Option (List SongInfo) :=
  (scanLoop oracle total segDur minConf overlap fuel 0 []).map mergeDetections

/-! ## Shared lemmas -/

theorem tzStart_eq : TARGET_ZONE_START_TIME = 1 / 10 := by
  rw [TARGET_ZONE_START_TIME, Rat.mkRat_eq_div]; norm_num

theorem tzDur_eq : TARGET_ZONE_TIME_DURATION = 8 / 10 := by
  rw [TARGET_ZONE_TIME_DURATION, Rat.mkRat_eq_div]; norm_num

/-- The inner pairing loop on a single candidate target. -/
theorem innerLoop_singleton (p : HashPlatform) (ta fa tMin tMax fMin fMax tt tf : ℚ) :
    innerLoop p ta fa tMin tMax fMin fMax [(tt, tf)] =
      if tMax < tt then []
      else if tMin ≤ tt ∧ tt ≤ tMax ∧ fMin ≤ tf ∧ tf ≤ fMax then
        [(pyHashTriple p fa tf (tt - ta), ta)]
      else [] := by
  simp only [innerLoop]

/-- `fingerprint_song` on a two-peak list, the second peak at time
`ta + d` for offset `d` from the anchor: everything depends only on
`(fa, tf, d)`, not on the anchor time. -/
theorem fingerprintPairs_pair (p : HashPlatform) (ta fa d tf : ℚ) :
    fingerprintPairs p [(ta, fa), (ta + d, tf)] =
      if TARGET_ZONE_START_TIME + TARGET_ZONE_TIME_DURATION < d then []
      else if TARGET_ZONE_START_TIME ≤ d ∧ d ≤ TARGET_ZONE_START_TIME + TARGET_ZONE_TIME_DURATION ∧
          fa - TARGET_ZONE_FREQ_WIDTH ≤ tf ∧ tf ≤ fa + TARGET_ZONE_FREQ_WIDTH then
        [(pyHashTriple p fa tf d, ta)]
      else [] := by
  have h1 : (ta + TARGET_ZONE_START_TIME + TARGET_ZONE_TIME_DURATION < ta + d) =
      (TARGET_ZONE_START_TIME + TARGET_ZONE_TIME_DURATION < d) :=
    propext ⟨fun h => by linarith, fun h => by linarith⟩
  have h2 : (ta + TARGET_ZONE_START_TIME ≤ ta + d) = (TARGET_ZONE_START_TIME ≤ d) :=
    propext ⟨fun h => by linarith, fun h => by linarith⟩
  have h3 : (ta + d ≤ ta + TARGET_ZONE_START_TIME + TARGET_ZONE_TIME_DURATION) =
      (d ≤ TARGET_ZONE_START_TIME + TARGET_ZONE_TIME_DURATION) :=
    propext ⟨fun h => by linarith, fun h => by linarith⟩
  have h4 : ta + d - ta = d := by ring
  simp only [fingerprintPairs, innerLoop_singleton, innerLoop, List.append_nil, h1, h2, h3, h4]

/-! ## C1: determinism of the fingerprint hash -/

set_option maxRecDepth 100000 in
unseal Rat.add Rat.sub Rat.mul in
/-- Claim C1 is false on the code: `fingerprint_song` hashes the landmark
triple with Python's builtin `hash`, whose value differs between 64-bit
and 32-bit CPython builds.  The same two-peak input (anchor at 0 s /
1000 Hz, target at 0.5 s / 1000 Hz) yields different hash sets on
`platform64` and `platform32`, refuting platform independence. -/
theorem c1_counterexample :
    (fingerprintPairs platform64 [(0, 1000), (mkRat 1 2, 1000)]).map Prod.fst ≠
      (fingerprintPairs platform32 [(0, 1000), (mkRat 1 2, 1000)]).map Prod.fst := by
  decide

/-- C1 (amended): on a fixed platform the emitted hash is a pure
deterministic function of `(anchorFrequency, targetFrequency, timeDelta)`
alone — equal triples give equal hashes, and in particular the hash set
of a landmark pair is invariant under shifting the anchor time, which is
what lets ingest-time and query-time fingerprints agree.  (Across
platforms with different hash widths the hash differs, per
`c1_counterexample`.) -/
theorem c1_hash_deterministic_per_platform :
    (∀ (p : HashPlatform) (a₁ f₁ d₁ a₂ f₂ d₂ : ℚ), a₁ = a₂ → f₁ = f₂ → d₁ = d₂ →
      pyHashTriple p a₁ f₁ d₁ = pyHashTriple p a₂ f₂ d₂) ∧
    (∀ (p : HashPlatform) (ta ta' fa d tf : ℚ),
      (fingerprintPairs p [(ta, fa), (ta + d, tf)]).map Prod.fst =
        (fingerprintPairs p [(ta', fa), (ta' + d, tf)]).map Prod.fst) := by
  constructor
  · intro p a₁ f₁ d₁ a₂ f₂ d₂ ha hf hd
    rw [ha, hf, hd]
  · intro p ta ta' fa d tf
    rw [fingerprintPairs_pair, fingerprintPairs_pair]
    split_ifs <;> simp

/-- Witness for `c1_hash_deterministic_per_platform` at a concrete
triple and a concrete anchor shift. -/
theorem c1_witness :
    pyHashTriple platform64 1000 1000 (mkRat 1 2) = pyHashTriple platform64 1000 1000 (mkRat 1 2) ∧
    (fingerprintPairs platform64 [(0, 1000), (0 + mkRat 1 2, 1000)]).map Prod.fst =
      (fingerprintPairs platform64 [(7, 1000), (7 + mkRat 1 2, 1000)]).map Prod.fst :=
  ⟨c1_hash_deterministic_per_platform.1 platform64 1000 1000 (mkRat 1 2) 1000 1000 (mkRat 1 2)
      rfl rfl rfl,
    c1_hash_deterministic_per_platform.2 platform64 0 7 1000 (mkRat 1 2) 1000⟩

/-! ## C2: target-zone boundary behaviour -/

set_option maxRecDepth 100000 in
unseal Rat.add Rat.sub Rat.mul in
/-- Claim C2 is false on the code: a target exactly at the upper bound
`t_max = anchorTime + 0.9` is NOT excluded.  The break fires only on
`target_time > t_max` and the pairing test `t_min <= target_time <= t_max`
is inclusive, so the boundary pair (anchor 0 s / 1000 Hz, target 0.9 s /
1000 Hz) produces a fingerprint. -/
theorem c2_counterexample :
    fingerprintPairs platform64 [(0, 1000), (mkRat 9 10, 1000)] ≠ [] := by
  decide

/-- C2 (amended): both target-zone time boundaries are inclusive — a
target whose time is exactly `anchorTime + 0.9` ( = `t_max`) is paired,
and a target whose time is exactly `anchorTime + 0.1` ( = `t_min`) is
paired, whenever its frequency lies within ±200 Hz of the anchor. -/
theorem c2_boundaries_inclusive (p : HashPlatform) (ta fa tf : ℚ)
    (hlo : fa - TARGET_ZONE_FREQ_WIDTH ≤ tf) (hhi : tf ≤ fa + TARGET_ZONE_FREQ_WIDTH) :
    fingerprintPairs p
        [(ta, fa), (ta + (TARGET_ZONE_START_TIME + TARGET_ZONE_TIME_DURATION), tf)] =
      [(pyHashTriple p fa tf (TARGET_ZONE_START_TIME + TARGET_ZONE_TIME_DURATION), ta)] ∧
    fingerprintPairs p [(ta, fa), (ta + TARGET_ZONE_START_TIME, tf)] =
      [(pyHashTriple p fa tf TARGET_ZONE_START_TIME, ta)] := by
  have hS : TARGET_ZONE_START_TIME = 1 / 10 := tzStart_eq
  have hD : TARGET_ZONE_TIME_DURATION = 8 / 10 := tzDur_eq
  constructor
  · rw [fingerprintPairs_pair]
    rw [if_neg (by rw [hS, hD]; norm_num), if_pos]
    refine ⟨by rw [hS, hD]; norm_num, le_refl _, hlo, hhi⟩
  · rw [fingerprintPairs_pair]
    rw [if_neg (by rw [hS, hD]; norm_num), if_pos]
    refine ⟨le_refl _, by rw [hS, hD]; norm_num, hlo, hhi⟩

set_option maxRecDepth 100000 in
unseal Rat.add Rat.sub Rat.mul in
/-- Witness for `c2_boundaries_inclusive` at a concrete anchor/target. -/
theorem c2_witness :
    fingerprintPairs platform64
        [(0, 1000), (0 + (TARGET_ZONE_START_TIME + TARGET_ZONE_TIME_DURATION), 1000)] =
      [(pyHashTriple platform64 1000 1000 (TARGET_ZONE_START_TIME + TARGET_ZONE_TIME_DURATION), 0)] ∧
    fingerprintPairs platform64 [(0, 1000), (0 + TARGET_ZONE_START_TIME, 1000)] =
      [(pyHashTriple platform64 1000 1000 TARGET_ZONE_START_TIME, 0)] :=
  c2_boundaries_inclusive platform64 0 1000 1000 (by decide) (by decide)

/-! ## C3: behaviour on index-lookup failure -/

set_option maxRecDepth 100000 in
unseal Rat.add Rat.sub Rat.mul in
/-- Claim C3 is false on the code: a failing lookup and a successful
lookup with no matching rows both make `recognize_from_supabase` return
`None` — the caller cannot distinguish "index unavailable" from
"no match". -/
theorem c3_counterexample :
    recognize_from_supabase (fun _ => none) [((1 : ℤ), (0 : ℚ))] = none ∧
    recognize_from_supabase (fun _ => some []) [((1 : ℤ), (0 : ℚ))] = none := by
  decide

/-- C3 (amended): when a chunk lookup fails mid-batch, the exception
aborts the loop, the transaction is rolled back and the call returns
`None` without scoring any partial votes — but that `None` is the very
value also used for "no match", so the two conditions are not
distinguishable by the caller. -/
theorem c3_failure_returns_none (lookup : List ℤ → Option (List DbRow))
    (fps : List (ℤ × ℚ))
    (h : runChunks lookup (chunksOf CHUNK_SIZE (fps.map Prod.fst)) = none) :
    recognize_from_supabase lookup fps = none := by
  unfold recognize_from_supabase
  by_cases he : fps.isEmpty
  · simp [he]
  · simp [he, h]

set_option maxRecDepth 100000 in
unseal Rat.add Rat.sub Rat.mul in
/-- Witness for `c3_failure_returns_none`: a lookup that always raises. -/
theorem c3_witness :
    recognize_from_supabase (fun _ => none) [((2 : ℤ), (0 : ℚ)), ((3 : ℤ), (1 : ℚ))] = none :=
  c3_failure_returns_none (fun _ => none) [((2 : ℤ), (0 : ℚ)), ((3 : ℤ), (1 : ℚ))] (by decide)

/-! ## Scanner lemmas -/

/-- If the per-iteration step is non-positive and the cursor starts
below `total`, the scanning loop never completes, whatever the fuel. -/
theorem scanLoop_none_of_nonpos_step (oracle : ℚ → Option (String × ℕ × ℚ))
    (total segDur : ℚ) (minConf : ℕ) (overlap : ℚ)
    (hstep : segDur - overlap ≤ 0) :
    ∀ (n : ℕ) (pos : ℚ) (acc : List SongInfo), pos < total →
      scanLoop oracle total segDur minConf overlap n pos acc = none := by
  intro n
  induction n with
  | zero => intro pos acc hpos; simp [scanLoop, hpos]
  | succ n ih =>
    intro pos acc hpos
    simp only [scanLoop, if_pos hpos]
    exact ih _ _ (by linarith)

/-- If `n` steps of size `segDur - overlap` from `pos` reach `total`,
fuel `n` completes the scanning loop. -/
theorem scanLoop_isSome_of_reach (oracle : ℚ → Option (String × ℕ × ℚ))
    (total segDur : ℚ) (minConf : ℕ) (overlap : ℚ) :
    ∀ (n : ℕ) (pos : ℚ) (acc : List SongInfo),
      total ≤ pos + (n : ℚ) * (segDur - overlap) →
      (scanLoop oracle total segDur minConf overlap n pos acc).isSome := by
  intro n
  induction n with
  | zero =>
    intro pos acc hreach
    have : ¬ pos < total := by push_cast at hreach; linarith
    simp [scanLoop, this]
  | succ n ih =>
    intro pos acc hreach
    by_cases hpos : pos < total
    · simp only [scanLoop, if_pos hpos]
      refine ih _ _ ?_
      push_cast at hreach ⊢
      linarith
    · simp [scanLoop, hpos]

/-- With an oracle that never matches, a completed scan returns its
accumulator unchanged. -/
theorem scanLoop_acc_of_noMatch (oracle : ℚ → Option (String × ℕ × ℚ))
    (total segDur : ℚ) (minConf : ℕ) (overlap : ℚ)
    (hnone : ∀ q, oracle q = none) :
    ∀ (n : ℕ) (pos : ℚ) (acc res : List SongInfo),
      scanLoop oracle total segDur minConf overlap n pos acc = some res → res = acc := by
  intro n
  induction n with
  | zero =>
    intro pos acc res h
    by_cases hpos : pos < total <;> simp [scanLoop, hpos] at h
    exact h.symm
  | succ n ih =>
    intro pos acc res h
    by_cases hpos : pos < total
    · simp only [scanLoop, if_pos hpos, stepWindow, hnone pos] at h
      exact ih _ _ _ h
    · simp [scanLoop, hpos] at h
      exact h.symm

/-- The first element of `mergeAux prev l` carries `prev`'s song. -/
theorem mergeAux_head_song (prev : SongInfo) :
    ∀ l : List SongInfo, ∃ hd tl, mergeAux prev l = hd :: tl ∧ hd.song = prev.song := by
  intro l
  induction l generalizing prev with
  | nil => exact ⟨prev, [], rfl, rfl⟩
  | cons c cs ih =>
    by_cases hc : c.song = prev.song
    · obtain ⟨hd, tl, heq, hsong⟩ :=
        ih { prev with end_time := c.end_time, confidence := max prev.confidence c.confidence }
      exact ⟨hd, tl, by simp [mergeAux, hc, heq], hsong⟩
    · obtain ⟨hd, tl, heq, _⟩ := ih c
      exact ⟨prev, mergeAux c cs, by simp [mergeAux, hc], rfl⟩

/-- No two consecutive entries of `mergeAux prev l` share a song. -/
theorem mergeAux_chain (prev : SongInfo) :
    ∀ l : List SongInfo, List.Chain' (fun a b => a.song ≠ b.song) (mergeAux prev l) := by
  intro l
  induction l generalizing prev with
  | nil => simp [mergeAux]
  | cons c cs ih =>
    by_cases hc : c.song = prev.song
    · simpa [mergeAux, hc] using
        ih { prev with end_time := c.end_time, confidence := max prev.confidence c.confidence }
    · obtain ⟨hd, tl, heq, hsong⟩ := mergeAux_head_song c cs
      have hchain := ih c
      rw [heq] at hchain
      simp only [mergeAux, hc, if_false, heq]
      exact List.Chain'.cons (by rw [hsong]; exact fun h => hc h.symm) hchain

/-- The merge pass output never has two consecutive same-song entries. -/
theorem mergeDetections_chain (l : List SongInfo) :
    List.Chain' (fun a b => a.song ≠ b.song) (mergeDetections l) := by
  cases l with
  | nil => simp [mergeDetections]
  | cons d ds => exact mergeAux_chain d ds

/-! ## C6: no configuration validation -/

set_option maxRecDepth 100000 in
unseal Rat.add Rat.sub Rat.mul in
/-- Claim C6 is false on the code: `recognize_multiple_songs_supabase`
performs no configuration validation.  With the invalid configuration
`segment_duration = 0` (a non-positive duration, `overlap = -25`) the
scan still runs: two windows are analyzed and a detection is returned,
so windows ARE analyzed under an invalid configuration. -/
theorem c6_counterexample :
    recognize_multiple_songs (fun _ => some ("A", 11, 0)) 30 0 10 (-25) 2 =
      some [⟨"A", 0, 25, 11⟩] ∧ ¬ (0 : ℚ) < 0 := by
  decide

/-- C6 (amended): the scanner never rejects a configuration.  A
non-positive `segment_duration` still analyzes windows (see
`c6_counterexample`), and when `overlap ≥ segment_duration` the cursor
never advances past its start, so the loop never completes for any
amount of fuel — the call hangs instead of rejecting. -/
theorem c6_no_validation (oracle : ℚ → Option (String × ℕ × ℚ))
    (total segDur : ℚ) (minConf : ℕ) (overlap : ℚ) (n : ℕ) (acc : List SongInfo)
    (hinvalid : segDur ≤ overlap) (htotal : 0 < total) :
    scanLoop oracle total segDur minConf overlap n 0 acc = none ∧
    (0 : ℚ) + (segDur - overlap) ≤ 0 := by
  refine ⟨scanLoop_none_of_nonpos_step oracle total segDur minConf overlap
    (by linarith) n 0 acc htotal, by linarith⟩

/-- Witness for `c6_no_validation` with `overlap = segment_duration = 30`. -/
theorem c6_witness :
    scanLoop (fun _ => some ("A", 11, 0)) 10 30 10 30 5 0 [] = none ∧
    (0 : ℚ) + (30 - 30) ≤ 0 :=
  c6_no_validation (fun _ => some ("A", 11, 0)) 10 30 10 30 5 []
    (by norm_num) (by norm_num)

/-! ## C7: termination for valid configurations -/

/-- Claim C7 holds: with `0 < overlap < segmentDuration` the cursor
strictly advances by `segmentDuration - overlap` each iteration and the
scanning loop completes once the cursor reaches `totalDuration`
(fuel `⌈totalDuration / step⌉` suffices). -/
theorem c7_scan_terminates (oracle : ℚ → Option (String × ℕ × ℚ))
    (total segDur : ℚ) (minConf : ℕ) (overlap : ℚ)
    (h1 : 0 < overlap) (h2 : overlap < segDur) :
    0 < segDur - overlap ∧
    ∃ (n : ℕ) (res : List SongInfo),
      scanLoop oracle total segDur minConf overlap n 0 [] = some res := by
  have hstep : 0 < segDur - overlap := by linarith [h1, h2]
  refine ⟨hstep, ⌈total / (segDur - overlap)⌉₊, ?_⟩
  have hceil : total / (segDur - overlap) ≤ (⌈total / (segDur - overlap)⌉₊ : ℚ) :=
    Nat.le_ceil _
  have hreach : total ≤ 0 + (⌈total / (segDur - overlap)⌉₊ : ℚ) * (segDur - overlap) := by
    rw [zero_add]
    exact (div_le_iff₀ hstep).mp hceil
  have hsome := scanLoop_isSome_of_reach oracle total segDur minConf overlap _ 0 [] hreach
  obtain ⟨res, hres⟩ := Option.isSome_iff_exists.mp hsome
  exact ⟨res, hres⟩

/-- Witness for `c7_scan_terminates` with the default configuration. -/
theorem c7_witness :
    0 < (30 : ℚ) - 5 ∧
    ∃ (n : ℕ) (res : List SongInfo),
      scanLoop (fun _ => none) 100 30 10 5 n 0 [] = some res :=
  c7_scan_terminates (fun _ => none) 100 30 10 5 (by norm_num) (by norm_num)

/-! ## C8: gaps do not close an interval; same-song matches extend it -/

/-- Claim C8 holds: a window with no result or a result below
`min_confidence` leaves the detection state completely unchanged, and a
window matching the song of the open (= last appended) interval extends
that same interval's end time to `pos + segment_duration` and raises its
confidence to the max of old and new score — so a weak window between
two strong windows of one song does not split its interval. -/
theorem c8_interval_extension (segDur : ℚ) (minConf : ℕ) (pos : ℚ) :
    (∀ detected, stepWindow segDur minConf pos detected none = detected) ∧
    (∀ detected song score offset, score < minConf →
      stepWindow segDur minConf pos detected (some (song, score, offset)) = detected) ∧
    (∀ (ds : List SongInfo) (last : SongInfo) (score : ℕ) (offset : ℚ), minConf ≤ score →
      stepWindow segDur minConf pos (ds ++ [last]) (some (last.song, score, offset)) =
        ds ++ [{ last with end_time := pos + segDur,
                           confidence := max last.confidence score }]) := by
  refine ⟨fun detected => rfl, fun detected song score offset hlow => ?_, ?_⟩
  · simp [stepWindow, Nat.not_le.mpr hlow]
  · intro ds last score offset hscore
    simp [stepWindow, hscore, List.getLast?_concat, List.dropLast_concat]

/-- Witness for `c8_interval_extension`: a weak window leaves the state
alone and a later same-song window extends the same interval. -/
theorem c8_witness :
    stepWindow 30 10 25 [⟨"A", 0, 30, 12⟩] none = [⟨"A", 0, 30, 12⟩] ∧
    stepWindow 30 10 25 [⟨"A", 0, 30, 12⟩] (some ("B", 3, 0)) = [⟨"A", 0, 30, 12⟩] ∧
    stepWindow 30 10 25 ([] ++ [⟨"A", 0, 30, 12⟩]) (some ("A", 11, 3)) =
      [] ++ [⟨"A", 0, 25 + 30, max 12 11⟩] :=
  ⟨(c8_interval_extension 30 10 25).1 _,
    (c8_interval_extension 30 10 25).2.1 _ "B" 3 0 (by norm_num),
    (c8_interval_extension 30 10 25).2.2 [] ⟨"A", 0, 30, 12⟩ 11 3 (by norm_num)⟩

/-! ## C9: shape of the merged scanner output -/

set_option maxRecDepth 100000 in
unseal Rat.add Rat.sub Rat.mul in
/-- Claim C9 is false on the code in its ordering part: interval start
times are `current_pos + offset` with `offset` taken from the match, so
a large first-window offset makes the output NOT ascending by start
time.  Concretely, window 0 matches song A at offset 100 and window 25
matches song B at offset 0: the returned list has start times
`[100, 25]`. -/
theorem c9_counterexample :
    recognize_multiple_songs
        (fun pos => if pos = 0 then some ("A", 11, 100)
          else if pos = 25 then some ("B", 11, 0) else none)
        30 30 10 5 3 = some [⟨"A", 100, 30, 11⟩, ⟨"B", 25, 55, 11⟩] ∧
    ¬ List.Sorted (fun a b : SongInfo => a.start_time ≤ b.start_time)
        [⟨"A", 100, 30, 11⟩, ⟨"B", 25, 55, 11⟩] := by
  decide

/-- C9 (amended): the merged output of a completed scan never contains
two consecutive entries with the same song, and the empty list is a
valid non-error outcome (in particular it is what an all-no-match scan
returns); the entries appear in window/detection order, which need not
be ascending by interval start time (see `c9_counterexample`). -/
theorem c9_merged_shape (oracle : ℚ → Option (String × ℕ × ℚ))
    (total segDur : ℚ) (minConf : ℕ) (overlap : ℚ) (fuel : ℕ) (out : List SongInfo)
    (h : recognize_multiple_songs oracle total segDur minConf overlap fuel = some out) :
    List.Chain' (fun a b => a.song ≠ b.song) out ∧
    ((∀ q, oracle q = none) → out = []) := by
  unfold recognize_multiple_songs at h
  cases hscan : scanLoop oracle total segDur minConf overlap fuel 0 [] with
  | none => rw [hscan] at h; simp at h
  | some d =>
    rw [hscan] at h
    simp only [Option.map_some', Option.some_inj] at h
    subst h
    refine ⟨mergeDetections_chain d, fun hnone => ?_⟩
    have hd : d = [] :=
      scanLoop_acc_of_noMatch oracle total segDur minConf overlap hnone fuel 0 [] d hscan
    rw [hd]
    rfl

set_option maxRecDepth 100000 in
unseal Rat.add Rat.sub Rat.mul in
/-- Witness for `c9_merged_shape`: an all-no-match scan yields the empty
list. -/
theorem c9_witness :
    List.Chain' (fun a b : SongInfo => a.song ≠ b.song) ([] : List SongInfo) ∧
    ((∀ q : ℚ, (fun _ : ℚ => (none : Option (String × ℕ × ℚ))) q = none) →
      ([] : List SongInfo) = []) :=
  c9_merged_shape (fun _ => none) 10 30 10 5 1 [] (by decide)

/-! ## Vote-grouping lemmas -/

/-- Incrementing key `k` adds one to its recorded count and leaves every
other key's count alone. -/
theorem lookupCount_bump (k : String × ℚ) :
    ∀ (l : List ((String × ℚ) × ℕ)) (k' : String × ℚ),
      lookupCount (bump l k) k' = lookupCount l k' + if k = k' then 1 else 0 := by
  intro l
  induction l with
  | nil =>
    intro k'
    by_cases hk : k = k' <;> simp [bump, lookupCount, hk]
  | cons a rest ih =>
    intro k'
    obtain ⟨ka, na⟩ := a
    by_cases hka : ka = k
    · subst hka
      by_cases hk' : ka = k' <;> simp [bump, lookupCount, hk']
    · by_cases hk' : ka = k'
      · subst hk'
        have : ¬ k = ka := fun h => hka h.symm
        simp [bump, lookupCount, hka, this]
      · simp [bump, lookupCount, hka, hk', ih]

/-- The recorded count of any group after the scoring fold equals its
count in the accumulator plus the number of rows voting for it. -/
theorem lookupCount_scoreFold (qmap : ℤ → Option ℚ) :
    ∀ (rows : List DbRow) (acc : List ((String × ℚ) × ℕ)) (k : String × ℚ),
      lookupCount
          (rows.foldl
            (fun acc r =>
              match voteKey qmap r with
              | some key => bump acc key
              | none => acc)
            acc) k =
        lookupCount acc k + rows.countP (fun r => decide (voteKey qmap r = some k)) := by
  intro rows
  induction rows with
  | nil => intro acc k; simp
  | cons r rest ih =>
    intro acc k
    rw [List.foldl_cons, ih]
    cases hv : voteKey qmap r with
    | none => simp [List.countP_cons, hv]
    | some key =>
      by_cases hk : key = k
      · subst hk
        simp [List.countP_cons, hv, lookupCount_bump]; omega
      · have : ¬ voteKey qmap r = some k := by rw [hv]; simp [hk]
        simp [List.countP_cons, hv, this, lookupCount_bump, hk]

/-- The vote count recorded by `scoreMatches` for a group equals the
number of returned rows whose vote key is that group. -/
theorem lookupCount_scoreMatches (qmap : ℤ → Option ℚ) (rows : List DbRow)
    (k : String × ℚ) :
    lookupCount (scoreMatches qmap rows) k =
      rows.countP (fun r => decide (voteKey qmap r = some k)) := by
  rw [scoreMatches, lookupCount_scoreFold]
  simp [lookupCount]

/-- `bump` either keeps the key list or appends the new key at the end. -/
theorem bump_keys (k : String × ℚ) :
    ∀ l : List ((String × ℚ) × ℕ),
      (bump l k).map Prod.fst =
        if k ∈ l.map Prod.fst then l.map Prod.fst else l.map Prod.fst ++ [k] := by
  intro l
  induction l with
  | nil => simp [bump]
  | cons a rest ih =>
    obtain ⟨ka, na⟩ := a
    by_cases hka : ka = k
    · subst hka; simp [bump]
    · have : ¬ k = ka := fun h => hka h.symm
      simp [bump, hka, ih, this]
      by_cases hmem : k ∈ rest.map Prod.fst <;> simp [hmem, this]

/-- `bump` preserves distinctness of the recorded keys. -/
theorem bump_nodup_keys (k : String × ℚ) (l : List ((String × ℚ) × ℕ))
    (h : (l.map Prod.fst).Nodup) : ((bump l k).map Prod.fst).Nodup := by
  rw [bump_keys]
  by_cases hmem : k ∈ l.map Prod.fst
  · simpa [hmem] using h
  · simp only [hmem, if_false]
    simp [List.nodup_append, h, hmem]

/-- The grouping produced by the scoring fold has distinct keys. -/
theorem scoreFold_nodup_keys (qmap : ℤ → Option ℚ) :
    ∀ (rows : List DbRow) (acc : List ((String × ℚ) × ℕ)),
      (acc.map Prod.fst).Nodup →
      ((rows.foldl
          (fun acc r =>
            match voteKey qmap r with
            | some key => bump acc key
            | none => acc)
          acc).map Prod.fst).Nodup := by
  intro rows
  induction rows with
  | nil => intro acc h; simpa using h
  | cons r rest ih =>
    intro acc h
    rw [List.foldl_cons]
    cases hv : voteKey qmap r with
    | none => exact ih acc h
    | some key => exact ih _ (bump_nodup_keys key acc h)

/-- With distinct keys, membership determines the recorded count. -/
theorem lookupCount_of_mem :
    ∀ (l : List ((String × ℚ) × ℕ)) (k : String × ℚ) (n : ℕ),
      (l.map Prod.fst).Nodup → (k, n) ∈ l → lookupCount l k = n := by
  intro l
  induction l with
  | nil => intro k n _ h; simp at h
  | cons a rest ih =>
    intro k n hnd hmem
    obtain ⟨ka, na⟩ := a
    simp only [List.map_cons, List.nodup_cons] at hnd
    rcases List.mem_cons.mp hmem with heq | htail
    · obtain ⟨hk, hn⟩ := Prod.mk.injEq .. ▸ heq
      injection heq with h1 h2
      subst h1; subst h2
      simp [lookupCount]
    · have hka : ka ≠ k := by
        intro h
        subst h
        exact hnd.1 (List.mem_map.mpr ⟨(ka, n), htail, rfl⟩)
      simp [lookupCount, hka, ih k n hnd.2 htail]

/-- A key with a positive recorded count occurs in the grouping with
that count. -/
theorem mem_of_lookupCount_pos :
    ∀ (l : List ((String × ℚ) × ℕ)) (k : String × ℚ),
      0 < lookupCount l k → (k, lookupCount l k) ∈ l := by
  intro l
  induction l with
  | nil => intro k h; simp [lookupCount] at h
  | cons a rest ih =>
    intro k h
    obtain ⟨ka, na⟩ := a
    by_cases hka : ka = k
    · subst hka
      simp only [lookupCount, if_pos rfl] at h ⊢
      exact List.mem_cons_self _ _
    · simp only [lookupCount, if_neg hka] at h ⊢
      exact List.mem_cons_of_mem _ (ih k h)

/-- Python's `max` over a nonempty item list returns the first item
attaining the maximal count: it splits the list as
`earlier ++ winner :: later` with every earlier item strictly below the
winner and every item at most the winner. -/
theorem pyMax_first_max :
    ∀ (xs : List ((String × ℚ) × ℕ)) (x : (String × ℚ) × ℕ),
      ∃ m l₁ l₂, pyMax (x :: xs) = some m ∧ x :: xs = l₁ ++ m :: l₂ ∧
        (∀ p ∈ l₁, p.2 < m.2) ∧ (∀ p ∈ x :: xs, p.2 ≤ m.2) := by
  intro xs
  induction xs with
  | nil =>
    intro x
    exact ⟨x, [], [], rfl, rfl, by simp, by simp⟩
  | cons y ys ih =>
    intro x
    by_cases hxy : x.2 < y.2
    · obtain ⟨m, l₁, l₂, hmax, heq, hlt, hle⟩ := ih y
      have hy : y.2 ≤ m.2 := hle y (List.mem_cons_self _ _)
      refine ⟨m, x :: l₁, l₂, ?_, ?_, ?_, ?_⟩
      · simpa [pyMax, hxy] using hmax
      · rw [List.cons_append, ← heq]
      · intro p hp
        rcases List.mem_cons.mp hp with rfl | hp
        · exact lt_of_lt_of_le hxy hy
        · exact hlt p hp
      · intro p hp
        rcases List.mem_cons.mp hp with rfl | hp
        · exact le_of_lt (lt_of_lt_of_le hxy hy)
        · exact hle p hp
    · obtain ⟨m, l₁, l₂, hmax, heq, hlt, hle⟩ := ih x
      cases l₁ with
      | nil =>
        simp only [List.nil_append] at heq
        injection heq with h1 h2
        refine ⟨m, [], y :: ys, ?_, ?_, by simp, ?_⟩
        · simpa [pyMax, hxy] using hmax
        · rw [← h1, List.nil_append]
        · intro p hp
          have hxm : x.2 ≤ m.2 := hle x (List.mem_cons_self _ _)
          rcases List.mem_cons.mp hp with rfl | hp
          · exact hxm
          · rcases List.mem_cons.mp hp with rfl | hp
            · exact le_trans (Nat.not_lt.mp hxy) hxm
            · exact hle p (List.mem_cons_of_mem _ hp)
      | cons a l₁p =>
        simp only [List.cons_append] at heq
        injection heq with h1 h2
        have hxm : x.2 < m.2 := by
          rw [h1]
          exact hlt a (List.mem_cons_self _ _)
        refine ⟨m, x :: y :: l₁p, l₂, ?_, ?_, ?_, ?_⟩
        · simpa [pyMax, hxy] using hmax
        · rw [List.cons_append, List.cons_append, ← h2]
        · intro p hp
          rcases List.mem_cons.mp hp with rfl | hp
          · exact hxm
          · rcases List.mem_cons.mp hp with rfl | hp
            · exact lt_of_le_of_lt (Nat.not_lt.mp hxy) hxm
            · exact hlt p (List.mem_cons_of_mem _ hp)
        · intro p hp
          rcases List.mem_cons.mp hp with rfl | hp
          · exact le_of_lt hxm
          · rcases List.mem_cons.mp hp with rfl | hp
            · exact le_trans (Nat.not_lt.mp hxy) (le_of_lt hxm)
            · exact hle p (List.mem_cons_of_mem _ hp)

/-! ## Chunking lemmas -/

/-- With enough fuel, concatenating the chunks restores the hash list. -/
theorem chunksOfFuel_flatten (n : ℕ) :
    ∀ (fuel : ℕ) (l : List ℤ), l.length ≤ fuel →
      (chunksOfFuel n fuel l).flatten = l := by
  intro fuel
  induction fuel with
  | zero =>
    intro l hl
    rw [List.length_eq_zero.mp (Nat.le_zero.mp hl)]
    rfl
  | succ fuel ih =>
    intro l hl
    cases l with
    | nil => rfl
    | cons x xs =>
      have hlen : (xs.drop (n - 1)).length ≤ fuel := by
        simp only [List.length_drop]
        simp only [List.length_cons] at hl
        omega
      simp only [chunksOfFuel, List.flatten_cons, ih _ hlen, List.cons_append,
        List.take_append_drop]

/-- Concatenating the chunks restores the hash list. -/
theorem chunksOf_flatten (n : ℕ) (l : List ℤ) : (chunksOf n l).flatten = l :=
  chunksOfFuel_flatten n l.length l le_rfl

/-- `l.contains a` decides membership. -/
theorem contains_eq_decide_mem (l : List ℤ) (a : ℤ) :
    l.contains a = decide (a ∈ l) :=
  List.elem_eq_mem a l

/-- A hash occurring in no chunk is contained in zero chunks. -/
theorem countP_contains_zero (h : ℤ) :
    ∀ cs : List (List ℤ), h ∉ cs.flatten →
      cs.countP (fun c => c.contains h) = 0 := by
  intro cs
  induction cs with
  | nil => intro _; rfl
  | cons c cs ih =>
    intro hmem
    rw [List.flatten_cons, List.mem_append] at hmem
    push_neg at hmem
    rw [List.countP_cons, ih hmem.2]
    simp [contains_eq_decide_mem, hmem.1]

/-- For a duplicate-free hash list, every hash lies in exactly one
chunk and a foreign hash in none. -/
theorem chunksOfFuel_countP_contains (n : ℕ) (h : ℤ) :
    ∀ (fuel : ℕ) (l : List ℤ), l.length ≤ fuel → l.Nodup →
      (chunksOfFuel n fuel l).countP (fun c => c.contains h) =
        if h ∈ l then 1 else 0 := by
  intro fuel
  induction fuel with
  | zero =>
    intro l hl _
    rw [List.length_eq_zero.mp (Nat.le_zero.mp hl)]
    rfl
  | succ fuel ih =>
    intro l hl hnd
    cases l with
    | nil => rfl
    | cons x xs =>
      have hsplit : xs.take (n - 1) ++ xs.drop (n - 1) = xs := List.take_append_drop _ _
      have hlen : (xs.drop (n - 1)).length ≤ fuel := by
        simp only [List.length_drop]
        simp only [List.length_cons] at hl
        omega
      rw [List.nodup_cons] at hnd
      have hndxs := hnd.2
      have hnddrop : (xs.drop (n - 1)).Nodup := hndxs.sublist (List.drop_sublist _ _)
      have hdisj : ∀ a, a ∈ xs.take (n - 1) → a ∉ xs.drop (n - 1) := by
        intro a hmemt hmemd
        have := (List.nodup_append.mp (hsplit ▸ hndxs)).2.2
        exact this hmemt hmemd
      simp only [chunksOfFuel]
      rw [List.countP_cons]
      by_cases hmem : h ∈ x :: xs.take (n - 1)
      · have hnotdrop : h ∉ xs.drop (n - 1) := by
          rcases List.mem_cons.mp hmem with rfl | hmemt
          · intro hd
            exact hnd.1 (hsplit ▸ List.mem_append.mpr (Or.inr hd))
          · exact hdisj h hmemt
        rw [countP_contains_zero h _ (by rwa [chunksOfFuel_flatten n fuel _ hlen])]
        have hx : h ∈ x :: xs := by
          rcases List.mem_cons.mp hmem with rfl | hmemt
          · exact List.mem_cons_self _ _
          · exact List.mem_cons_of_mem _ (hsplit ▸ List.mem_append.mpr (Or.inl hmemt))
        simp [contains_eq_decide_mem, hmem, hx]
      · rw [ih _ hlen hnddrop]
        have hiff : h ∈ x :: xs ↔ h ∈ xs.drop (n - 1) := by
          constructor
          · intro hx
            rcases List.mem_cons.mp hx with rfl | hxs
            · exact absurd (List.mem_cons_self _ _) hmem
            · rcases List.mem_append.mp (hsplit ▸ hxs : h ∈ _ ++ _) with ht | hd
              · exact absurd (List.mem_cons_of_mem _ ht) hmem
              · exact hd
          · intro hd
            exact List.mem_cons_of_mem _ (hsplit ▸ List.mem_append.mpr (Or.inr hd))
        by_cases hx : h ∈ x :: xs
        · rw [if_pos (hiff.mp hx)]
          simp [contains_eq_decide_mem, hmem, hx]
        · rw [if_neg (fun hd => hx (hiff.mpr hd))]
          simp [contains_eq_decide_mem, hmem, hx]

/-- Multiplicity of a row in the accumulated chunked lookups: once per
chunk containing its hash. -/
theorem count_flatMap_lookup (index : List DbRow) (r : DbRow) :
    ∀ cs : List (List ℤ),
      (cs.flatMap (lookupChunk index)).count r =
        cs.countP (fun c => c.contains r.hash) * index.count r := by
  intro cs
  induction cs with
  | nil => simp
  | cons c cs ih =>
    rw [List.flatMap_cons, List.count_append, ih, List.countP_cons]
    by_cases hc : c.contains r.hash = true
    · rw [lookupChunk, List.count_filter (by simpa using hc), if_pos hc]
      ring
    · have hnot : r ∉ index.filter fun row => c.contains row.hash := by
        intro hmem
        have hp := List.of_mem_filter hmem
        exact hc hp
      rw [lookupChunk, List.count_eq_zero.mpr hnot, if_neg hc]
      ring

/-- For a duplicate-free query hash list, the accumulated chunked rows
are a permutation of the rows of the single unchunked query. -/
theorem chunkedRows_perm (index : List DbRow) (fps : List (ℤ × ℚ))
    (hnd : (fps.map Prod.fst).Nodup) :
    (chunkedRows index fps).Perm (unchunkedRows index fps) := by
  rw [List.perm_iff_count]
  intro r
  rw [chunkedRows, count_flatMap_lookup, chunksOf,
    chunksOfFuel_countP_contains CHUNK_SIZE r.hash _ _ le_rfl hnd]
  by_cases hmem : r.hash ∈ fps.map Prod.fst
  · rw [if_pos hmem, one_mul, unchunkedRows, lookupChunk,
      List.count_filter (by simpa using hmem)]
  · rw [if_neg hmem, zero_mul, unchunkedRows, lookupChunk]
    have : r ∉ (fps.map Prod.fst).foldr (fun h acc => acc) [] := by simp
    rw [List.count_eq_zero.mpr]
    intro hmemf
    exact hmem (by simpa using List.of_mem_filter hmemf)

/-- A successful lookup oracle makes `runChunks` return the
concatenation of the per-chunk results. -/
theorem runChunks_total (f : List ℤ → List DbRow) :
    ∀ cs : List (List ℤ), runChunks (fun c => some (f c)) cs = some (cs.flatMap f) := by
  intro cs
  induction cs with
  | nil => rfl
  | cons c cs ih => rw [runChunks, ih, List.flatMap_cons]

/-- A grouping with distinct keys whose counts realise `voteCt`: if some
key `k₀` strictly dominates every other key's count, Python's `max`
selects exactly `(k₀, voteCt k₀)`. -/
theorem pyMax_unique_winner (g : List ((String × ℚ) × ℕ))
    (hndk : (g.map Prod.fst).Nodup) (voteCt : String × ℚ → ℕ)
    (hcnt : ∀ k, lookupCount g k = voteCt k) (k₀ : String × ℚ)
    (hpos : 0 < voteCt k₀) (hmax : ∀ k, k ≠ k₀ → voteCt k < voteCt k₀) :
    pyMax g = some (k₀, voteCt k₀) := by
  cases g with
  | nil =>
    have h0 : (0 : ℕ) = voteCt k₀ := hcnt k₀
    omega
  | cons x xs =>
    obtain ⟨m, l₁, l₂, hpm, heq, _, hle⟩ := pyMax_first_max xs x
    have hmemm : m ∈ x :: xs := by
      rw [heq]
      exact List.mem_append.mpr (Or.inr (List.mem_cons_self _ _))
    have hmcnt : lookupCount (x :: xs) m.1 = m.2 :=
      lookupCount_of_mem _ m.1 m.2 hndk (by simpa using hmemm)
    have hk0cnt : lookupCount (x :: xs) k₀ = voteCt k₀ := hcnt k₀
    have hmemk0 : (k₀, voteCt k₀) ∈ x :: xs := by
      have := mem_of_lookupCount_pos (x :: xs) k₀ (hk0cnt ▸ hpos)
      rwa [hk0cnt] at this
    have hk0le : voteCt k₀ ≤ m.2 := by
      simpa using hle (k₀, voteCt k₀) hmemk0
    have hm2 : m.2 = voteCt m.1 := by rw [← hcnt m.1, hmcnt]
    by_cases hm : m.1 = k₀
    · have hval : m.2 = voteCt k₀ := by rw [hm2, hm]
      rw [hpm]
      rw [show m = (m.1, m.2) from rfl, hm, hval]
    · exact absurd (lt_of_lt_of_le (hmax m.1 hm) (hm2 ▸ hk0le)) (lt_irrefl _)

/-- The grouping built by `scoreMatches` has distinct keys. -/
theorem scoreMatches_nodup_keys (qmap : ℤ → Option ℚ) (rows : List DbRow) :
    ((scoreMatches qmap rows).map Prod.fst).Nodup :=
  scoreFold_nodup_keys qmap rows [] (by simp)

/-! ## C4: chunked versus unchunked lookup -/

set_option maxRecDepth 200000 in
unseal Rat.add Rat.sub Rat.mul in
/-- Claim C4 is false on the code: when the query fingerprint list
contains duplicate hashes that straddle a chunk boundary, the matching
rows are fetched once per chunk and votes are double-counted.  901
fingerprints with the same hash split into chunks of 900 and 1; the
single matching index row is returned by both chunk queries, so the
chunked matcher reports 2 votes where the unchunked lookup reports 1 —
the winning `(song, score, offset)` triple differs. -/
theorem c4_counterexample :
    recognize_from_supabase (dbLookup [⟨1, "A", 10⟩])
        (List.replicate 901 ((1 : ℤ), (0 : ℚ))) = some ("A", 2, 10) ∧
    recognizeUnchunked [⟨1, "A", 10⟩]
        (List.replicate 901 ((1 : ℤ), (0 : ℚ))) = some ("A", 1, 10) ∧
    recognize_from_supabase (dbLookup [⟨1, "A", 10⟩])
        (List.replicate 901 ((1 : ℤ), (0 : ℚ))) ≠
      recognizeUnchunked [⟨1, "A", 10⟩] (List.replicate 901 ((1 : ℤ), (0 : ℚ))) := by
  refine ⟨by decide, by decide, ?_⟩
  intro h
  rw [show recognize_from_supabase (dbLookup [⟨1, "A", 10⟩])
      (List.replicate 901 ((1 : ℤ), (0 : ℚ))) = some ("A", 2, 10) by decide,
    show recognizeUnchunked [⟨1, "A", 10⟩]
      (List.replicate 901 ((1 : ℤ), (0 : ℚ))) = some ("A", 1, 10) by decide] at h
  simp at h

/-- C4 (amended): when the query's hash list contains no duplicate
hashes, the chunked lookup fetches each matching row exactly once, so
every `(song, offset)` group receives the same vote count as with a
single unchunked query; and whenever one group strictly dominates all
others, the chunked matcher returns exactly the unchunked winner.
(With duplicate hashes across chunks, or with tied groups reordered by
chunking, the winners can differ — see `c4_counterexample`.) -/
theorem c4_chunking_equivalence (index : List DbRow) (fps : List (ℤ × ℚ))
    (hnd : (fps.map Prod.fst).Nodup) :
    (∀ k, lookupCount (scoreMatches (buildQueryMap fps) (chunkedRows index fps)) k =
        lookupCount (scoreMatches (buildQueryMap fps) (unchunkedRows index fps)) k) ∧
    (∀ k₀ : String × ℚ, 0 < voteCount index fps k₀ →
      (∀ k, k ≠ k₀ → voteCount index fps k < voteCount index fps k₀) →
      recognize_from_supabase (dbLookup index) fps = recognizeUnchunked index fps) := by
  have hperm := chunkedRows_perm index fps hnd
  constructor
  · intro k
    rw [lookupCount_scoreMatches, lookupCount_scoreMatches]
    exact hperm.countP_eq _
  · intro k₀ hpos hmax
    have hcnt1 : ∀ k,
        lookupCount (scoreMatches (buildQueryMap fps) (chunkedRows index fps)) k =
          voteCount index fps k := by
      intro k
      rw [lookupCount_scoreMatches, voteCount]
      exact hperm.countP_eq _
    have hcnt2 : ∀ k,
        lookupCount (scoreMatches (buildQueryMap fps) (unchunkedRows index fps)) k =
          voteCount index fps k := by
      intro k
      rw [lookupCount_scoreMatches, voteCount]
    obtain ⟨r₀, hr₀mem, _⟩ := List.countP_pos_iff.mp hpos
    have hr₀ := List.mem_filter.mp hr₀mem
    have hfne : ¬ fps.isEmpty := by
      intro he
      rw [List.isEmpty_iff.mp he] at hr₀
      simp at hr₀
    have hwin1 : pyMax (scoreMatches (buildQueryMap fps) (chunkedRows index fps)) =
        some (k₀, voteCount index fps k₀) :=
      pyMax_unique_winner _ (scoreMatches_nodup_keys _ _) _ hcnt1 k₀ hpos hmax
    have hwin2 : pyMax (scoreMatches (buildQueryMap fps) (unchunkedRows index fps)) =
        some (k₀, voteCount index fps k₀) :=
      pyMax_unique_winner _ (scoreMatches_nodup_keys _ _) _ hcnt2 k₀ hpos hmax
    have hms1 : ¬ (scoreMatches (buildQueryMap fps) (chunkedRows index fps)).isEmpty := by
      intro he
      rw [List.isEmpty_iff.mp he] at hwin1
      simp [pyMax] at hwin1
    have hms2 : ¬ (scoreMatches (buildQueryMap fps) (unchunkedRows index fps)).isEmpty := by
      intro he
      rw [List.isEmpty_iff.mp he] at hwin2
      simp [pyMax] at hwin2
    have hrows2 : ¬ (unchunkedRows index fps).isEmpty := by
      intro he
      rw [List.isEmpty_iff.mp he] at hr₀mem
      simp at hr₀mem
    have hrows1 : ¬ (chunkedRows index fps).isEmpty := by
      intro he
      have := hperm.length_eq
      rw [List.isEmpty_iff.mp he] at this
      rw [List.isEmpty_iff, ← List.length_eq_zero] at hrows2
      exact hrows2 this.symm
    have hrun : runChunks (dbLookup index) (chunksOf CHUNK_SIZE (fps.map Prod.fst)) =
        some (chunkedRows index fps) :=
      runChunks_total (lookupChunk index) _
    rw [recognize_from_supabase, recognizeUnchunked]
    simp only [hfne, if_false, Bool.not_eq_true] at *
    rw [hrun]
    simp only [hfne, hrows1, hrows2, hms1, hms2, if_false, unchunkedRows, chunkedRows] at *
    rw [hwin1, hwin2]

set_option maxRecDepth 100000 in
unseal Rat.add Rat.sub Rat.mul in
/-- Witness for `c4_chunking_equivalence`: two distinct hashes, both
hitting song A at the same offset, give the same winner chunked and
unchunked. -/
theorem c4_witness :
    recognize_from_supabase (dbLookup [⟨1, "A", 10⟩, ⟨2, "A", 10⟩])
        [((1 : ℤ), (0 : ℚ)), ((2 : ℤ), (0 : ℚ))] =
      recognizeUnchunked [⟨1, "A", 10⟩, ⟨2, "A", 10⟩]
        [((1 : ℤ), (0 : ℚ)), ((2 : ℤ), (0 : ℚ))] := by
  refine (c4_chunking_equivalence [⟨1, "A", 10⟩, ⟨2, "A", 10⟩]
      [((1 : ℤ), (0 : ℚ)), ((2 : ℤ), (0 : ℚ))] (by decide)).2 ("A", 10) (by decide) ?_
  intro k hk
  have h1 : voteCount [⟨1, "A", 10⟩, ⟨2, "A", 10⟩]
      [((1 : ℤ), (0 : ℚ)), ((2 : ℤ), (0 : ℚ))] ("A", 10) = 2 := by decide
  have h0 : voteCount [⟨1, "A", 10⟩, ⟨2, "A", 10⟩]
      [((1 : ℤ), (0 : ℚ)), ((2 : ℤ), (0 : ℚ))] k = 0 := by
    rw [voteCount, List.countP_eq_zero]
    intro r hr
    have hrows : unchunkedRows [⟨1, "A", 10⟩, ⟨2, "A", 10⟩]
        [((1 : ℤ), (0 : ℚ)), ((2 : ℤ), (0 : ℚ))] = [⟨1, "A", 10⟩, ⟨2, "A", 10⟩] := by decide
    rw [hrows] at hr
    have hv : voteKey (buildQueryMap [((1 : ℤ), (0 : ℚ)), ((2 : ℤ), (0 : ℚ))]) r =
        some ("A", 10) := by
      rcases List.mem_cons.mp hr with rfl | hr
      · decide
      · rcases List.mem_cons.mp hr with rfl | hr
        · decide
        · simp at hr
    rw [hv]
    simp only [decide_eq_true_eq, Option.some_inj]
    exact fun he => hk he.symm
  rw [h0, h1]
  norm_num

/-! ## C5: highest vote count wins, ties to the first encountered -/

/-- Claim C5 holds: for every non-empty vote grouping produced by the
scoring fold, Python's `max` returns a group that splits the grouping
as `earlier ++ winner :: later` where every earlier group (inserted
earlier while scoring) has a strictly smaller vote count and every
group's count is at most the winner's.  The matcher is a pure function,
so repeated runs resolve a tie identically. -/
theorem c5_first_encountered_wins (qmap : ℤ → Option ℚ) (rows : List DbRow)
    (hne : scoreMatches qmap rows ≠ []) :
    ∃ m l₁ l₂, pyMax (scoreMatches qmap rows) = some m ∧
      scoreMatches qmap rows = l₁ ++ m :: l₂ ∧
      (∀ p ∈ l₁, p.2 < m.2) ∧ (∀ p ∈ scoreMatches qmap rows, p.2 ≤ m.2) := by
  cases hsm : scoreMatches qmap rows with
  | nil => exact absurd hsm hne
  | cons x xs =>
    obtain ⟨m, l₁, l₂, hmax, heq, hlt, hle⟩ := pyMax_first_max xs x
    exact ⟨m, l₁, l₂, hmax, heq, hlt, fun p hp => hle p hp⟩

set_option maxRecDepth 100000 in
unseal Rat.add Rat.sub Rat.mul in
/-- Witness for `c5_first_encountered_wins`: two groups tie with one
vote each; the winner exists, is one of the groups, and every strictly
earlier group is strictly smaller. -/
theorem c5_witness :
    ∃ m l₁ l₂,
      pyMax (scoreMatches (buildQueryMap [((1 : ℤ), (0 : ℚ)), ((2 : ℤ), (0 : ℚ))])
          [⟨1, "A", 5⟩, ⟨2, "B", 7⟩]) = some m ∧
      scoreMatches (buildQueryMap [((1 : ℤ), (0 : ℚ)), ((2 : ℤ), (0 : ℚ))])
          [⟨1, "A", 5⟩, ⟨2, "B", 7⟩] = l₁ ++ m :: l₂ ∧
      (∀ p ∈ l₁, p.2 < m.2) ∧
      (∀ p ∈ scoreMatches (buildQueryMap [((1 : ℤ), (0 : ℚ)), ((2 : ℤ), (0 : ℚ))])
          [⟨1, "A", 5⟩, ⟨2, "B", 7⟩], p.2 ≤ m.2) :=
  c5_first_encountered_wins _ _ (by decide)

/-! ## C10: duplicate query hashes — the last anchor time wins -/

/-- Claim C10 holds: the dict comprehension keeps, for every hash, the
anchor time of the LAST fingerprint with that hash (a later pair
overrides earlier ones), and a returned row whose hash maps to `t`
votes for exactly the group `(song, round(offset - t, 2))` with one
vote — earlier same-hash anchors contribute nothing. -/
theorem c10_last_anchor_wins :
    (∀ (fps : List (ℤ × ℚ)) (h : ℤ),
      buildQueryMap fps h = ((fps.filter fun p => p.1 = h).getLast?).map Prod.snd) ∧
    (∀ (fps : List (ℤ × ℚ)) (r : DbRow) (t : ℚ),
      buildQueryMap fps r.hash = some t →
      scoreMatches (buildQueryMap fps) [r] = [((r.song, pyRound2 (r.offset - t)), 1)]) := by
  have key : ∀ (fps : List (ℤ × ℚ)) (m : ℤ → Option ℚ) (h : ℤ),
      fps.foldl (fun m p => fun k => if k = p.1 then some p.2 else m k) m h =
        match (fps.filter fun p => p.1 = h).getLast? with
        | some q => some q.2
        | none => m h := by
    intro fps
    induction fps with
    | nil => intro m h; rfl
    | cons p rest ih =>
      intro m h
      rw [List.foldl_cons, ih]
      by_cases hp : p.1 = h
      · rw [List.filter_cons_of_pos (by simp [hp])]
        cases hrest : (rest.filter fun q => q.1 = h).getLast? with
        | some q => simp [List.getLast?_cons, hrest]
        | none =>
          rw [List.getLast?_cons, hrest]
          show (if h = p.1 then some p.2 else m h) = some ((none : Option (ℤ × ℚ)).getD p).2
          rw [if_pos hp.symm, Option.getD_none]
      · rw [List.filter_cons_of_neg (by simp [hp])]
        cases hrest : (rest.filter fun q => q.1 = h).getLast? with
        | some q => rfl
        | none =>
          have hne : ¬ h = p.1 := fun hh => hp hh.symm
          simp [hne]
  constructor
  · intro fps h
    rw [buildQueryMap, key]
    cases (fps.filter fun p => p.1 = h).getLast? <;> rfl
  · intro fps r t ht
    simp [scoreMatches, voteKey, ht, bump]

set_option maxRecDepth 100000 in
unseal Rat.add Rat.sub Rat.mul in
/-- Witness for `c10_last_anchor_wins`: hash 5 occurs with anchor times
1 and then 2; the dict keeps 2, and a row with hash 5 votes with anchor
time 2. -/
theorem c10_witness :
    buildQueryMap [((5 : ℤ), (1 : ℚ)), ((5 : ℤ), (2 : ℚ))] 5 =
      (([((5 : ℤ), (1 : ℚ)), ((5 : ℤ), (2 : ℚ))].filter fun p => p.1 = 5).getLast?).map
        Prod.snd ∧
    scoreMatches (buildQueryMap [((5 : ℤ), (1 : ℚ)), ((5 : ℤ), (2 : ℚ))]) [⟨5, "A", 3⟩] =
      [(("A", pyRound2 ((3 : ℚ) - 2)), 1)] :=
  ⟨c10_last_anchor_wins.1 [((5 : ℤ), (1 : ℚ)), ((5 : ℤ), (2 : ℚ))] 5,
    c10_last_anchor_wins.2 [((5 : ℤ), (1 : ℚ)), ((5 : ℤ), (2 : ℚ))] ⟨5, "A", 3⟩ 2 (by decide)⟩

end AudioAPI
